import Mathlib

/-!
Shallow embedding of the seedr terminal UI core: the navigation state
machine (`model.Update` in the `tui` package), the navigation cache, the
marked-files selection set, and the download pipeline
(`cmdDownloadFile`, `cmdBatchDownloadFiles`).

Conventions of the embedding:
* Go strings that undergo path splitting (`strings.Split` on "/") are
  modelled as `List Char`; opaque identifiers are `String`.
* Go maps (`map[string]V`) are modelled as association lists with
  `lookupKey` / `insertKey` / `eraseKey`; only lookup is observed.
* The bubbles `list.Model` widget is abstracted to its item slice and
  its selected index (`items`, `cursor`); presentation-only data
  (styles, titles, spinner, the `desc` string built with float
  formatting) is omitted.
* Asynchronous commands returned by `Update` are reified as `Cmd`
  values; spinner ticks are dropped, fetches are kept.
* Float64 progress fractions are modelled as rationals.
-/

/-- Go `itemType` with its three constants. -/
inductive ItemType where
  | TypeFolder
  | TypeFile
  | TypeTorrent
deriving DecidableEq, Repr

/-- Go `item` struct from the tui package (the `desc` presentation
string is omitted). -/
structure item where
  id : String
  itemType : ItemType
  title : List Char
  marked : Bool
deriving DecidableEq, Repr

/-- Go `appState` enum. -/
inductive appState where
  | stateLoading
  | stateDownloading
  | stateReady
  | stateError
  | stateEmpty
deriving DecidableEq, Repr

/-- Payload of Go `contentsMsg` (`struct{ items []list.Item; currentFolderName string }`). -/
structure contentsMsgData where
  items : List item
  currentFolderName : String
deriving DecidableEq, Repr

/-- Inbound messages handled by `model.Update`: key presses and the
asynchronous result messages.  `cursorSet` abstracts the cursor motion
performed by the embedded bubbles list on navigation keys.  `keyBack`
is the "backspace" key press (the Back binding's primary key), which
is also the item delegate's `remove` key. -/
inductive Msg where
  | keyEnter
  | keyBack
  | keyMark
  | keyRetry
  | cursorSet (n : Nat)
  | contentsMsg (d : contentsMsgData)
  | errMsg (e : String)
  | emptyContentsMsg
deriving DecidableEq, Repr

/-- Observable commands issued by `Update`: a `fetchContents` call for a
folder id (spinner ticks are dropped). -/
inductive Cmd where
  | fetchContentsCmd (folderID : String)
deriving DecidableEq, Repr

/-- Association-list lookup, mirroring Go map indexing. -/
def lookupKey (k : String) : List (String × α) → Option α
  | [] => none
  | (k', v) :: rest => if k' = k then some v else lookupKey k rest

/-- Association-list removal, mirroring Go `delete(m, k)`. -/
def eraseKey (k : String) : List (String × α) → List (String × α)
  | [] => []
  | (k', v) :: rest =>
      if k' = k then eraseKey k rest else (k', v) :: eraseKey k rest

/-- Association-list insert/replace, mirroring Go `m[k] = v`. -/
def insertKey (k : String) (v : α) (l : List (String × α)) : List (String × α) :=
  (k, v) :: eraseKey k l

/-- The Go `model` struct restricted to the navigation/transfer core:
list items and cursor, state enum, last error, folder-id stack, current
folder id, navigation cache, marked-files selection set, the current
path string (as a character list), and the enabled flag of the item
delegate's `remove` key binding (`d.keys.remove`), which the delegate
turns off once a removal empties the list. -/
structure model where
  items : List item
  cursor : Nat
  state : appState
  err : Option String
  folderHistory : List String
  currentFolderID : String
  contentCache : List (String × contentsMsgData)
  markedFiles : List (String × item)
  currentFolderPath : List Char
  removeEnabled : Bool
deriving DecidableEq, Repr

/-- Go `newModel`: stack starts at the root folder "0", path at "/";
`newDelegateKeyMap` creates the remove binding enabled. -/
def newModel : model where
  items := []
  cursor := 0
  state := .stateLoading
  err := none
  folderHistory := ["0"]
  currentFolderID := "0"
  contentCache := []
  markedFiles := []
  currentFolderPath := ['/']
  removeEnabled := true

/-- Path extension in the Enter case:
`if m.currentFolderPath == "/" { path = item.title } else { path = path + "/" + item.title }`. -/
def enterPath (path title : List Char) : List Char :=
  if path = ['/'] then title else path ++ '/' :: title

/-- Single-character split, mirroring `strings.Split(s, "/")`: `n`
separators yield `n+1` (possibly empty) parts. -/
def splitSlash : List Char → List (List Char)
  | [] => [[]]
  | c :: rest =>
      if c = '/' then [] :: splitSlash rest
      else
        match splitSlash rest with
        | [] => [[c]]
        | p :: ps => (c :: p) :: ps

/-- Mirror of `strings.Join(parts, "/")`. -/
def joinSlash : List (List Char) → List Char
  | [] => []
  | [p] => p
  | p :: ps => p ++ '/' :: joinSlash ps

/-- Path shortening in the Back case: split on "/", drop the last
segment, rejoin; an empty result or a single-part split falls back to
the root path "/". -/
def backPath (path : List Char) : List Char :=
  if path ≠ ['/'] then
    let parts := splitSlash path
    if parts.length > 1 then
      let p := joinSlash parts.dropLast
      if p = [] then ['/'] else p
    else ['/']
  else path

/-- Mirror of the Mark case's list-update loop: it finds the first item
with the matching id and writes the element it just read back into the
slice (`items[i] = it`), then breaks. -/
def markAssign : List item → String → List item
  | [], _ => []
  | x :: xs, tid => if x.id = tid then x :: xs else x :: markAssign xs tid

/-- The navigation core of Go `model.Update` (part_002): Retry, Enter,
Back and Mark key handling plus the fetch-result messages.  Returns the
next model and the fetch command issued, if any.  Key cases that do not
return early fall through to `m.list.Update(msg)`, which forwards the
key to the item delegate: for the Retry ("r"), Enter ("enter") and
Mark ("m") keys neither the list widget nor the delegate changes the
modelled state (the delegate's `choose` case only emits a transient
status message), but for the Back key ("backspace") the delegate's
`remove` binding deletes the item at the current index — provided a
selected item exists and the binding has not been disabled — and
disables the binding once the list becomes empty. -/
def Update (m : model) (msg : Msg) : model × Option Cmd :=
  match msg with
  | .keyRetry =>
      if m.state = .stateError ∨ m.state = .stateEmpty then
        ({ m with
            state := .stateLoading
            err := none
            contentCache := eraseKey m.currentFolderID m.contentCache },
         some (.fetchContentsCmd m.currentFolderID))
      else (m, none)
  | .keyEnter =>
      if m.state = .stateReady then
        match m.items.get? m.cursor with
        | none => (m, none)
        | some it =>
            if it.itemType = .TypeFolder then
              let hist := m.folderHistory ++ [m.currentFolderID]
              let fid := it.id
              let path := enterPath m.currentFolderPath it.title
              match lookupKey fid m.contentCache with
              | some _ =>
                  ({ m with
                      folderHistory := hist
                      currentFolderID := fid
                      currentFolderPath := path
                      state := .stateReady
                      cursor := 0 }, none)
              | none =>
                  ({ m with
                      folderHistory := hist
                      currentFolderID := fid
                      currentFolderPath := path
                      state := .stateLoading
                      cursor := 0 },
                   some (.fetchContentsCmd fid))
            else (m, none)
      else (m, none)
  | .keyBack =>
      if m.state = .stateReady ∧ m.folderHistory.length > 1 then
        let hist := m.folderHistory.dropLast
        match hist.getLast? with
        | none => (m, none)
        | some prev =>
            let path := backPath m.currentFolderPath
            match lookupKey prev m.contentCache with
            | some cached =>
                ({ m with
                    folderHistory := hist
                    currentFolderID := prev
                    currentFolderPath := path
                    state := .stateReady
                    items := cached.items
                    cursor := 0 }, none)
            | none =>
                ({ m with
                    folderHistory := hist
                    currentFolderID := prev
                    currentFolderPath := path
                    state := .stateLoading
                    cursor := 0 },
                 some (.fetchContentsCmd prev))
      else
        -- fall-through to m.list.Update("backspace"): the delegate's
        -- remove binding deletes the selected item, if there is one
        -- and the binding is still enabled, disabling it once the
        -- list is emptied
        match m.items.get? m.cursor with
        | none => (m, none)
        | some _ =>
            if m.removeEnabled then
              let items' := m.items.eraseIdx m.cursor
              ({ m with
                  items := items'
                  removeEnabled := if items'.isEmpty then false else m.removeEnabled },
               none)
            else (m, none)
  | .keyMark =>
      if m.state = .stateReady then
        match m.items.get? m.cursor with
        | none => (m, none)
        | some sel =>
            if sel.itemType = .TypeFile then
              let toggled := { sel with marked := !sel.marked }
              let mf :=
                if toggled.marked then insertKey toggled.id toggled m.markedFiles
                else eraseKey toggled.id m.markedFiles
              ({ m with
                  markedFiles := mf
                  items := markAssign m.items toggled.id }, none)
            else (m, none)
      else (m, none)
  | .cursorSet n => ({ m with cursor := n }, none)
  | .contentsMsg d =>
      ({ m with
          state := .stateReady
          items := d.items
          contentCache := insertKey m.currentFolderID d m.contentCache }, none)
  | .errMsg e => ({ m with state := .stateError, err := some e }, none)
  | .emptyContentsMsg => ({ m with state := .stateEmpty }, none)

/-- Run a sequence of messages through `Update`, collecting the fetch
commands issued along the way. -/
def runTrace : model → List Msg → model × List Cmd
  | m, [] => (m, [])
  | m, msg :: rest =>
      let s := Update m msg
      let t := runTrace s.1 rest
      (t.1, s.2.toList ++ t.2)

/-- Count the fetch commands issued for a given folder id. -/
def countFetch (fid : String) : List Cmd → Nat
  | [] => 0
  | .fetchContentsCmd g :: rest => (if g = fid then 1 else 0) + countFetch fid rest

/-! ## fetchContents (part_003) -/

/-- Go `seedrcc.Folder` (fields used by `fetchContents`; `LastUpdate`
and the float-formatted description are presentation-only and omitted). -/
structure Folder where
  ID : Int
  Name : List Char
  Size : Int
deriving DecidableEq, Repr

/-- Go `seedrcc.File` (fields used by `fetchContents`). -/
structure File where
  FolderFileID : Int
  Name : List Char
  Size : Int
deriving DecidableEq, Repr

/-- Go `seedrcc.Torrent` (fields used by `fetchContents`). -/
structure Torrent where
  ID : Int
  Name : List Char
  Size : Int
deriving DecidableEq, Repr

/-- Result of the external `client.ListContents` capability. -/
structure ListContentsResult where
  Name : String
  Folders : List Folder
  Files : List File
  Torrents : List Torrent
deriving DecidableEq, Repr

/-- The items `fetchContents` builds from a successful listing:
folders, then files (keyed by `FolderFileID`), then torrents; every
item starts unmarked (Go zero value). -/
def allItemsOf (contents : ListContentsResult) : List item :=
  contents.Folders.map
      (fun f => { id := toString f.ID, itemType := .TypeFolder, title := f.Name, marked := false })
    ++ contents.Files.map
      (fun f => { id := toString f.FolderFileID, itemType := .TypeFile, title := f.Name, marked := false })
    ++ contents.Torrents.map
      (fun t => { id := toString t.ID, itemType := .TypeTorrent, title := t.Name, marked := false })

/-- Go `fetchContents` over the abstract `ListContents` outcome: a
failed call becomes `errMsg`, a listing with zero items becomes
`emptyContentsMsg`, otherwise `contentsMsg`. -/
def fetchContents (folderID : String) (res : Except String ListContentsResult) : Msg :=
  match res with
  | .error e => .errMsg ("failed to fetch contents for folder " ++ folderID ++ ": " ++ e)
  | .ok contents =>
      let allItems := allItemsOf contents
      if allItems.isEmpty then .emptyContentsMsg
      else .contentsMsg { items := allItems, currentFolderName := contents.Name }

/-! ## Download pipeline (part_003) -/

/-- Outcome of one `resp.Body.Read` call: `ok` keeps reading, `eof` is
`io.EOF`, `errRead` is any other read error. -/
inductive ReadStatus where
  | ok
  | eof
  | errRead
deriving DecidableEq, Repr

/-- One iteration of the 32 KiB streaming loop: bytes returned by the
read, whether the `outFile.Write` of those bytes succeeds, and the
read's error value. -/
structure ReadStep where
  n : Nat
  writeOk : Bool
  status : ReadStatus
deriving DecidableEq, Repr

/-- Error kinds attached to download failure events, one per failure
site in `cmdDownloadFile` / `cmdBatchDownloadFiles`. -/
inductive DlErr where
  | urlResolve
  | connection
  | untrackable
  | createFile
  | writeFile
  | readStream
deriving DecidableEq, Repr

/-- Messages a transfer places on its channel: per-chunk progress
fractions, per-file completion, per-file failure, and the two batch
terminal messages. -/
inductive DlEvent where
  | progressMsg (fraction : ℚ)
  | downloadCompleteMsg (name : List Char)
  | downloadErrorMsg (kind : DlErr) (name : List Char)
  | batchDownloadCompleteMsg (count : Nat)
  | batchDownloadErrorMsg (errs : List (DlErr × List Char))
deriving DecidableEq, Repr

/-- Abstract environment of one file transfer: whether URL resolution
(`client.FetchFile`) succeeds, whether `http.Get` succeeds, the
response's `ContentLength`, whether `os.Create` succeeds, and the
sequence of read/write outcomes of the streaming loop. -/
structure TransferEnv where
  fetchFileOk : Bool
  httpGetOk : Bool
  contentLength : Int
  createOk : Bool
  reads : List ReadStep
deriving DecidableEq, Repr

/-- The streaming loop of `cmdDownloadFile`: each read with `n > 0`
writes the chunk (a failed write emits a failure event and stops),
accumulates `downloadedBytes` and emits a progress fraction
`downloadedBytes / totalSize`; `io.EOF` emits the completion event,
any other read error emits a failure event. -/
def downloadLoop (totalSize : Int) (fileName : List Char) :
    Nat → List ReadStep → List DlEvent
  | _, [] => []
  | downloaded, s :: rest =>
      if 0 < s.n then
        if s.writeOk then
          let d := downloaded + s.n
          DlEvent.progressMsg ((d : ℚ) / (totalSize : ℚ)) ::
            (match s.status with
             | .eof => [DlEvent.downloadCompleteMsg fileName]
             | .errRead => [DlEvent.downloadErrorMsg .readStream fileName]
             | .ok => downloadLoop totalSize fileName d rest)
        else [DlEvent.downloadErrorMsg .writeFile fileName]
      else
        match s.status with
        | .eof => [DlEvent.downloadCompleteMsg fileName]
        | .errRead => [DlEvent.downloadErrorMsg .readStream fileName]
        | .ok => downloadLoop totalSize fileName downloaded rest

/-- Go `cmdDownloadFile`: resolve the URL, open the connection, require
a positive declared content length, create the local file, then stream;
each failure site emits its own failure event and ends the transfer. -/
def cmdDownloadFile (env : TransferEnv) (fileName : List Char) : List DlEvent :=
  if ¬ env.fetchFileOk then [DlEvent.downloadErrorMsg .urlResolve fileName]
  else if ¬ env.httpGetOk then [DlEvent.downloadErrorMsg .connection fileName]
  else if env.contentLength ≤ 0 then [DlEvent.downloadErrorMsg .untrackable fileName]
  else if ¬ env.createOk then [DlEvent.downloadErrorMsg .createFile fileName]
  else downloadLoop env.contentLength fileName 0 env.reads

/-- One file of a batch: its list item and its transfer environment. -/
structure BatchFile where
  file : item
  env : TransferEnv
deriving DecidableEq, Repr

/-- The per-file streaming loop of `cmdBatchDownloadFiles`: like
`downloadLoop`, but write/read failures are returned to the caller to
be collected into the batch error list instead of being emitted. -/
def batchFileLoop (totalSize : Int) (fileName : List Char) :
    Nat → List ReadStep → List DlEvent × Option (DlErr × List Char)
  | _, [] => ([], none)
  | downloaded, s :: rest =>
      if 0 < s.n then
        if s.writeOk then
          let d := downloaded + s.n
          let p := DlEvent.progressMsg ((d : ℚ) / (totalSize : ℚ))
          match s.status with
          | .eof => ([p, DlEvent.downloadCompleteMsg fileName], none)
          | .errRead => ([p], some (.readStream, fileName))
          | .ok =>
              let t := batchFileLoop totalSize fileName d rest
              (p :: t.1, t.2)
        else ([], some (.writeFile, fileName))
      else
        match s.status with
        | .eof => ([DlEvent.downloadCompleteMsg fileName], none)
        | .errRead => ([], some (.readStream, fileName))
        | .ok => batchFileLoop totalSize fileName downloaded rest

/-- One iteration of the batch loop body: the events the file's
transfer emits and the error it contributes to the batch error list,
if any.  Failures before the stream (URL resolution, connection,
content length, file creation) emit nothing and contribute an error;
`continue` moves to the next file. -/
def batchFileRun (f : BatchFile) : List DlEvent × Option (DlErr × List Char) :=
  if ¬ f.env.fetchFileOk then ([], some (.urlResolve, f.file.title))
  else if ¬ f.env.httpGetOk then ([], some (.connection, f.file.title))
  else if f.env.contentLength ≤ 0 then ([], some (.untrackable, f.file.title))
  else if ¬ f.env.createOk then ([], some (.createFile, f.file.title))
  else batchFileLoop f.env.contentLength f.file.title 0 f.env.reads

/-- The batch loop with its running error list: after all files are
processed, a non-empty error list yields one joined
`batchDownloadErrorMsg`, otherwise one `batchDownloadCompleteMsg`
reporting `len(files)`. -/
def batchGo (total : Nat) : List BatchFile → List (DlErr × List Char) → List DlEvent
  | [], batchErrors =>
      if batchErrors.isEmpty then [DlEvent.batchDownloadCompleteMsg total]
      else [DlEvent.batchDownloadErrorMsg batchErrors]
  | f :: rest, batchErrors =>
      let r := batchFileRun f
      r.1 ++ batchGo total rest (batchErrors ++ r.2.toList)

/-- Go `cmdBatchDownloadFiles`. -/
def cmdBatchDownloadFiles (files : List BatchFile) : List DlEvent :=
  batchGo files.length files []

/-- Whether an event is a per-chunk progress fraction. -/
def isProgress : DlEvent → Bool
  | .progressMsg _ => true
  | _ => false

/-- Whether an event is one of the two batch terminal events. -/
def isBatchFinal : DlEvent → Bool
  | .batchDownloadCompleteMsg _ => true
  | .batchDownloadErrorMsg _ => true
  | _ => false

/-! ## Map lemmas -/

theorem lookupKey_eraseKey_self (k : String) (l : List (String × α)) :
    lookupKey k (eraseKey k l) = none := by
  induction l with
  | nil => rfl
  | cons p t ih =>
      by_cases h : p.1 = k
      · simpa [eraseKey, h] using ih
      · simpa [eraseKey, lookupKey, h] using ih

theorem lookupKey_eraseKey_ne (k k' : String) (h : k ≠ k') (l : List (String × α)) :
    lookupKey k (eraseKey k' l) = lookupKey k l := by
  induction l with
  | nil => rfl
  | cons p t ih =>
      by_cases hp : p.1 = k'
      · have hpk : p.1 ≠ k := by simpa [hp] using Ne.symm h
        simp [eraseKey, lookupKey, hp, hpk, Ne.symm h, ih]
      · by_cases hk : p.1 = k
        · simp [eraseKey, lookupKey, hp, hk, h]
        · simp [eraseKey, lookupKey, hp, hk, ih]

theorem lookupKey_insertKey_self (k : String) (v : α) (l : List (String × α)) :
    lookupKey k (insertKey k v l) = some v := by
  simp [insertKey, lookupKey]

theorem lookupKey_insertKey_ne (k k' : String) (h : k ≠ k') (v : α)
    (l : List (String × α)) :
    lookupKey k (insertKey k' v l) = lookupKey k l := by
  simp [insertKey, lookupKey, Ne.symm h, lookupKey_eraseKey_ne k k' h]

/-- The Mark case's list-update loop writes each visited element back
unchanged, so it is the identity on the item list. -/
theorem markAssign_eq (l : List item) (tid : String) : markAssign l tid = l := by
  induction l with
  | nil => rfl
  | cons x xs ih =>
      by_cases h : x.id = tid <;> simp [markAssign, h, ih]

/-! ## C10, C8, C9: message handling -/

/-- C10: a delivered `contentsMsg` (which carries only items and a
display name, no folder id) is always installed as the displayed list
and cached under whichever folder id is current at delivery time, with
no correlation check — so a late result for a folder the user has
navigated away from is applied and cached under the new current
folder's id.  This holds for every model, whatever folder the fetch
was issued for. -/
theorem contentsMsg_cached_under_current_folder (m : model) (d : contentsMsgData) :
    Update m (.contentsMsg d) =
      ({ m with
          state := .stateReady
          items := d.items
          contentCache := insertKey m.currentFolderID d m.contentCache }, none) := rfl

/-- C8: a Retry in state Error or Empty removes exactly the current
folder id's cache entry (every other key reads unchanged), sets the
state to Loading, and issues the new fetch for the current folder; in
any other state Retry changes nothing and issues nothing. -/
theorem retry_invalidates_current_entry (m m' : model) (k : String)
    (h : m.state = .stateError ∨ m.state = .stateEmpty)
    (h' : ¬ (m'.state = .stateError ∨ m'.state = .stateEmpty)) :
    (Update m .keyRetry).1.state = .stateLoading
    ∧ (Update m .keyRetry).2 = some (.fetchContentsCmd m.currentFolderID)
    ∧ lookupKey m.currentFolderID (Update m .keyRetry).1.contentCache = none
    ∧ (k ≠ m.currentFolderID →
        lookupKey k (Update m .keyRetry).1.contentCache = lookupKey k m.contentCache)
    ∧ Update m' .keyRetry = (m', none) := by
  refine ⟨?_, ?_, ?_, fun hk => ?_, ?_⟩
  · simp [Update, h]
  · simp [Update, h]
  · simp [Update, h, lookupKey_eraseKey_self]
  · simp [Update, h, lookupKey_eraseKey_ne k m.currentFolderID hk]
  · simp [Update, h']

/-- A concrete state in `stateError` with two cached folders, used to
witness the Retry theorem. -/
def errorModel : model where
  items := []
  cursor := 0
  state := .stateError
  err := some "boom"
  folderHistory := ["0"]
  currentFolderID := "0"
  contentCache := [("0", ⟨[], "root"⟩), ("5", ⟨[], "five"⟩)]
  markedFiles := []
  currentFolderPath := ['/']
  removeEnabled := true

/-- Witness for the Retry theorem at `errorModel` (and `newModel`,
which is in `stateLoading`, for the no-op part). -/
theorem retry_invalidates_current_entry_witness :
    (Update errorModel .keyRetry).1.state = .stateLoading
    ∧ (Update errorModel .keyRetry).2 = some (.fetchContentsCmd errorModel.currentFolderID)
    ∧ lookupKey errorModel.currentFolderID (Update errorModel .keyRetry).1.contentCache = none
    ∧ ("5" ≠ errorModel.currentFolderID →
        lookupKey "5" (Update errorModel .keyRetry).1.contentCache =
          lookupKey "5" errorModel.contentCache)
    ∧ Update newModel .keyRetry = (newModel, none) :=
  retry_invalidates_current_entry errorModel newModel "5" (by decide) (by decide)

/-- C9: a fetch that succeeds with zero items (no folders, files or
torrents) yields `emptyContentsMsg`, which puts the state machine in
`stateEmpty` (not `stateError`); a failed fetch yields `errMsg`, which
puts it in `stateError` with the triggering error recorded in `err`. -/
theorem empty_fetch_vs_failed_fetch (m : model) (folderID e x : String)
    (c : ListContentsResult)
    (hempty : c.Folders = [] ∧ c.Files = [] ∧ c.Torrents = []) :
    fetchContents folderID (.ok c) = .emptyContentsMsg
    ∧ (Update m .emptyContentsMsg).1.state = .stateEmpty
    ∧ appState.stateEmpty ≠ appState.stateError
    ∧ fetchContents folderID (.error e) =
        .errMsg ("failed to fetch contents for folder " ++ folderID ++ ": " ++ e)
    ∧ (Update m (.errMsg x)).1.state = .stateError
    ∧ (Update m (.errMsg x)).1.err = some x := by
  obtain ⟨h1, h2, h3⟩ := hempty
  exact ⟨by simp [fetchContents, allItemsOf, h1, h2, h3], by simp [Update],
    by simp, by simp [fetchContents], by simp [Update], by simp [Update]⟩

/-- Witness for the empty-vs-error fetch theorem on a listing with no
folders, files or torrents. -/
theorem empty_fetch_vs_failed_fetch_witness :
    fetchContents "0" (.ok ⟨"seedr", [], [], []⟩) = .emptyContentsMsg
    ∧ (Update newModel .emptyContentsMsg).1.state = .stateEmpty
    ∧ appState.stateEmpty ≠ appState.stateError
    ∧ fetchContents "0" (.error "timeout") =
        .errMsg ("failed to fetch contents for folder " ++ "0" ++ ": " ++ "timeout")
    ∧ (Update newModel (.errMsg "bad")).1.state = .stateError
    ∧ (Update newModel (.errMsg "bad")).1.err = some "bad" :=
  empty_fetch_vs_failed_fetch newModel "0" "timeout" "bad" ⟨"seedr", [], [], []⟩
    ⟨rfl, rfl, rfl⟩

/-! ## C6: stack invariant -/

/-- A single `Update` step never empties the folder-id stack. -/
theorem update_folderHistory_len (m : model) (msg : Msg)
    (h : 1 ≤ m.folderHistory.length) :
    1 ≤ (Update m msg).1.folderHistory.length := by
  cases msg with
  | keyEnter =>
      simp only [Update]
      split
      · cases hget : m.items.get? m.cursor with
        | none => simpa using h
        | some it =>
            simp only [hget]
            split
            · cases hc : lookupKey it.id m.contentCache <;> simp
            · simpa using h
      · simpa using h
  | keyBack =>
      simp only [Update]
      split
      · rename_i hg
        cases hl : m.folderHistory.dropLast.getLast? with
        | none => simpa using h
        | some prev =>
            have hlen : 1 ≤ m.folderHistory.dropLast.length := by
              have := hg.2
              simp only [List.length_dropLast]
              omega
            cases hc : lookupKey prev m.contentCache <;>
              simp only [hc] <;> simpa using hlen
      · cases hget : m.items.get? m.cursor with
        | none => simpa using h
        | some it =>
            simp only [hget]
            split <;> simpa using h
  | keyRetry => simp only [Update]; split <;> simpa using h
  | keyMark =>
      simp only [Update]
      split
      · cases hget : m.items.get? m.cursor with
        | none => simpa using h
        | some sel =>
            simp only [hget]
            split <;> simpa using h
      · simpa using h
  | cursorSet n => simpa [Update] using h
  | contentsMsg d => simpa [Update] using h
  | errMsg e => simpa [Update] using h
  | emptyContentsMsg => simpa [Update] using h

theorem runTrace_folderHistory_len (msgs : List Msg) (m : model)
    (h : 1 ≤ m.folderHistory.length) :
    1 ≤ (runTrace m msgs).1.folderHistory.length := by
  induction msgs generalizing m with
  | nil => simpa [runTrace] using h
  | cons msg rest ih =>
      simpa [runTrace] using ih (Update m msg).1 (update_folderHistory_len m msg h)

/-- C6 (counterexample): a Back event at stack length 1 is NOT a
state-preserving no-op.  The Back case returns nothing when its guard
fails, so the "backspace" key falls through to `m.list.Update`, whose
item delegate binds "backspace" to `RemoveItem`: in a Ready state at
the root showing one file, Back deletes the displayed item. -/
theorem back_at_root_deletes_selected_item :
    (runTrace newModel
        [.contentsMsg ⟨[⟨"9", .TypeFile, ['b'], false⟩], "root"⟩]).1.folderHistory.length = 1
    ∧ Update (runTrace newModel
        [.contentsMsg ⟨[⟨"9", .TypeFile, ['b'], false⟩], "root"⟩]).1 .keyBack ≠
      ((runTrace newModel
        [.contentsMsg ⟨[⟨"9", .TypeFile, ['b'], false⟩], "root"⟩]).1, none)
    ∧ (Update (runTrace newModel
        [.contentsMsg ⟨[⟨"9", .TypeFile, ['b'], false⟩], "root"⟩]).1 .keyBack).1.items
        = [] := by decide

/-- C6 (amended): across every event sequence from the initial model
the folder-id stack stays non-empty; and a Back event on any model
whose stack has length 1 leaves the navigation state — stack, current
folder id, path, cache, selection set, state enum and error —
unchanged and issues no fetch, though it is not a full no-op: the key
falls through to the list widget's delegate, which either leaves the
displayed items unchanged or deletes the currently selected one. -/
theorem stack_invariant_amended (msgs : List Msg) (m : model)
    (h : m.folderHistory.length = 1) :
    1 ≤ (runTrace newModel msgs).1.folderHistory.length
    ∧ (Update m .keyBack).1.folderHistory = m.folderHistory
    ∧ (Update m .keyBack).1.currentFolderID = m.currentFolderID
    ∧ (Update m .keyBack).1.currentFolderPath = m.currentFolderPath
    ∧ (Update m .keyBack).1.contentCache = m.contentCache
    ∧ (Update m .keyBack).1.markedFiles = m.markedFiles
    ∧ (Update m .keyBack).1.state = m.state
    ∧ (Update m .keyBack).1.err = m.err
    ∧ (Update m .keyBack).2 = none
    ∧ ((Update m .keyBack).1.items = m.items
        ∨ (Update m .keyBack).1.items = m.items.eraseIdx m.cursor) := by
  refine ⟨runTrace_folderHistory_len msgs newModel (by simp [newModel]), ?_⟩
  have hng : ¬ (m.state = .stateReady ∧ m.folderHistory.length > 1) := by
    rintro ⟨-, h2⟩; omega
  simp only [Update, if_neg hng]
  cases hget : m.items.get? m.cursor with
  | none => exact ⟨rfl, rfl, rfl, rfl, rfl, rfl, rfl, rfl, Or.inl rfl⟩
  | some it =>
      simp only [hget]
      by_cases hr : m.removeEnabled = true
      · simp [hr]
      · simp only [Bool.not_eq_true] at hr
        simp [hr]

/-- Witness for the amended stack invariant at the initial model
(stack length 1, empty list: the fall-through leaves items
unchanged). -/
theorem stack_invariant_amended_witness :
    1 ≤ (runTrace newModel [.keyBack]).1.folderHistory.length
    ∧ (Update newModel .keyBack).1.folderHistory = newModel.folderHistory
    ∧ (Update newModel .keyBack).1.currentFolderID = newModel.currentFolderID
    ∧ (Update newModel .keyBack).1.currentFolderPath = newModel.currentFolderPath
    ∧ (Update newModel .keyBack).1.contentCache = newModel.contentCache
    ∧ (Update newModel .keyBack).1.markedFiles = newModel.markedFiles
    ∧ (Update newModel .keyBack).1.state = newModel.state
    ∧ (Update newModel .keyBack).1.err = newModel.err
    ∧ (Update newModel .keyBack).2 = none
    ∧ ((Update newModel .keyBack).1.items = newModel.items
        ∨ (Update newModel .keyBack).1.items =
            newModel.items.eraseIdx newModel.cursor) :=
  stack_invariant_amended [.keyBack] newModel (by decide)

/-! ## C1, C4: code bugs in the Mark and Enter handlers -/

/-- C1 (code bug): toggling Mark twice on the same unmarked file does
NOT leave the Selection Set unchanged.  The Mark handler toggles a
copy of the selected item, but its list-update loop writes the old
element back (`items[i] = it`), so the displayed item's `marked` flag
never flips and the second toggle re-inserts instead of removing.
After two Mark presses on file "11" the marked-files map still
contains the file and the displayed item is still unmarked. -/
theorem mark_twice_keeps_file_marked :
    (runTrace newModel
        [.contentsMsg ⟨[⟨"11", .TypeFile, ['a'], false⟩], "root"⟩,
         .keyMark, .keyMark]).1.markedFiles =
      [("11", ⟨"11", .TypeFile, ['a'], true⟩)]
    ∧ (runTrace newModel
        [.contentsMsg ⟨[⟨"11", .TypeFile, ['a'], false⟩], "root"⟩,
         .keyMark, .keyMark]).1.items =
      [⟨"11", .TypeFile, ['a'], false⟩] := by decide

/-- The trace for the Enter-on-cached-folder scenario: fetch the root
(one folder "7"), enter it (fetch goes out), receive its contents,
go back to the cached root, then enter folder "7" again — now served
from the cache. -/
def enterCachedTrace : List Msg :=
  [.contentsMsg ⟨[⟨"7", .TypeFolder, ['A'], false⟩], "seedr"⟩,
   .keyEnter,
   .contentsMsg ⟨[⟨"9", .TypeFile, ['b'], false⟩], "A"⟩,
   .keyBack,
   .keyEnter]

/-- C4 (code bug): entering a folder whose snapshot is cached stays in
Ready and issues no fetch, but the handler never calls `SetItems`, so
the displayed item list is still the parent folder's — not the cached
snapshot's items, contrary to the spec (and to the handler's own
"use it immediately" comment; the Back handler's cache branch does
call `SetItems`). -/
theorem enter_cached_folder_does_not_render_snapshot :
    (runTrace newModel enterCachedTrace).1.state = .stateReady
    ∧ (runTrace newModel enterCachedTrace).1.currentFolderID = "7"
    ∧ (runTrace newModel enterCachedTrace).2 = [.fetchContentsCmd "7"]
    ∧ lookupKey "7" (runTrace newModel enterCachedTrace).1.contentCache =
        some ⟨[⟨"9", .TypeFile, ['b'], false⟩], "A"⟩
    ∧ (runTrace newModel enterCachedTrace).1.items =
        [⟨"7", .TypeFolder, ['A'], false⟩] := by decide

/-! ## C5: cache idempotence -/

/-- C5: starting from a fetched root whose first item is folder `aId`
(distinct from the root id "0"), the event sequence
Enter(A), deliver A's contents, Back, Enter(A) issues exactly one
`fetchContents` call for folder A: the first Enter fetches, the second
is served from the cache, and Back is served from the cached root. -/
theorem listContents_called_once_per_folder
    (aId : String) (aTitle : List Char) (rest aItems : List item)
    (rootName aName : String) (hne : aId ≠ "0") :
    countFetch aId (runTrace newModel
      [.contentsMsg ⟨⟨aId, .TypeFolder, aTitle, false⟩ :: rest, rootName⟩,
       .keyEnter,
       .contentsMsg ⟨aItems, aName⟩,
       .keyBack,
       .keyEnter]).2 = 1 := by
  simp [runTrace, Update, newModel, enterPath, lookupKey, insertKey, eraseKey,
    countFetch, hne, Ne.symm hne]

/-- Witness for the single-fetch theorem on a concrete root with one
folder "7" containing one file. -/
theorem listContents_called_once_per_folder_witness :
    countFetch "7" (runTrace newModel
      [.contentsMsg ⟨⟨"7", .TypeFolder, ['A'], false⟩ :: [], "seedr"⟩,
       .keyEnter,
       .contentsMsg ⟨[⟨"9", .TypeFile, ['b'], false⟩], "A"⟩,
       .keyBack,
       .keyEnter]).2 = 1 :=
  listContents_called_once_per_folder "7" ['A'] [] [⟨"9", .TypeFile, ['b'], false⟩]
    "seedr" "A" (by decide)

/-! ## C7: path/stack consistency -/

/-- Number of display-name segments of a path string: the non-empty
parts of its split on "/" (the root path "/" has zero segments). -/
def segCount (p : List Char) : Nat :=
  ((splitSlash p).filter (fun s => !s.isEmpty)).length

/-- A display name that round-trips through the slash-joined path:
non-empty and containing no separator. -/
def goodTitle (t : List Char) : Prop := t ≠ [] ∧ '/' ∉ t

instance (t : List Char) : Decidable (goodTitle t) :=
  inferInstanceAs (Decidable (t ≠ [] ∧ '/' ∉ t))

/-- All items of a list have good display names. -/
def goodItems (l : List item) : Prop := ∀ it ∈ l, goodTitle it.title

instance (l : List item) : Decidable (goodItems l) :=
  inferInstanceAs (Decidable (∀ it ∈ l, goodTitle it.title))

/-- A message whose delivered items (if any) all have good display
names. -/
def goodMsg : Msg → Prop
  | .contentsMsg d => goodItems d.items
  | _ => True

instance : (msg : Msg) → Decidable (goodMsg msg)
  | .keyEnter => inferInstanceAs (Decidable True)
  | .keyBack => inferInstanceAs (Decidable True)
  | .keyMark => inferInstanceAs (Decidable True)
  | .keyRetry => inferInstanceAs (Decidable True)
  | .cursorSet _ => inferInstanceAs (Decidable True)
  | .contentsMsg d => inferInstanceAs (Decidable (goodItems d.items))
  | .errMsg _ => inferInstanceAs (Decidable True)
  | .emptyContentsMsg => inferInstanceAs (Decidable True)

def goodNames (names : List (List Char)) : Prop := ∀ n ∈ names, goodTitle n

/-- The path string denoted by a stack of folder display names. -/
def pathOfNames : List (List Char) → List Char
  | [] => ['/']
  | n :: ns => joinSlash (n :: ns)

theorem splitSlash_ne_nil (l : List Char) : splitSlash l ≠ [] := by
  cases l with
  | nil => simp [splitSlash]
  | cons c rest =>
      simp only [splitSlash]
      split
      · simp
      · split <;> simp

theorem splitSlash_no_slash (l : List Char) (h : '/' ∉ l) : splitSlash l = [l] := by
  induction l with
  | nil => rfl
  | cons c rest ih =>
      have hc : ¬ c = '/' := fun e => h (by simp [e])
      have hr : '/' ∉ rest := fun hm => h (List.mem_cons_of_mem _ hm)
      simp [splitSlash, hc, ih hr]

theorem splitSlash_append (a b : List Char) :
    splitSlash (a ++ '/' :: b) = splitSlash a ++ splitSlash b := by
  induction a with
  | nil => simp [splitSlash]
  | cons c a' ih =>
      by_cases h : c = '/'
      · simp [splitSlash, h, ih]
      · simp only [List.cons_append, splitSlash, h, if_false, List.append_eq]
        rw [ih]
        cases hs : splitSlash a' with
        | nil => exact absurd hs (splitSlash_ne_nil a')
        | cons p ps => simp [hs]

theorem splitSlash_joinSlash (names : List (List Char))
    (h : ∀ n ∈ names, '/' ∉ n) (hne : names ≠ []) :
    splitSlash (joinSlash names) = names := by
  induction names with
  | nil => cases hne rfl
  | cons n ns ih =>
      cases ns with
      | nil => simp [joinSlash, splitSlash_no_slash n (h n (by simp))]
      | cons m ms =>
          have hj : joinSlash (n :: m :: ms) = n ++ '/' :: joinSlash (m :: ms) := rfl
          rw [hj, splitSlash_append, splitSlash_no_slash n (h n (by simp)),
            ih (fun x hx => h x (List.mem_cons_of_mem _ hx)) (by simp)]
          rfl

theorem joinSlash_append_last (ns : List (List Char)) (t : List Char) (h : ns ≠ []) :
    joinSlash (ns ++ [t]) = joinSlash ns ++ '/' :: t := by
  induction ns with
  | nil => cases h rfl
  | cons n ns' ih =>
      cases ns' with
      | nil => rfl
      | cons m ms =>
          have hji : joinSlash ((m :: ms) ++ [t]) = joinSlash (m :: ms) ++ '/' :: t :=
            ih (by simp)
          simp only [List.cons_append, joinSlash] at hji ⊢
          simp [hji]

theorem joinSlash_ne_nil (names : List (List Char)) (hne : names ≠ [])
    (hx : ∀ n ∈ names, n ≠ []) : joinSlash names ≠ [] := by
  cases names with
  | nil => cases hne rfl
  | cons n ns =>
      cases ns with
      | nil => exact hx n (by simp)
      | cons m ms => simp [joinSlash]

theorem pathOfNames_ne_root (names : List (List Char)) (hg : goodNames names)
    (hne : names ≠ []) : pathOfNames names ≠ ['/'] := by
  cases names with
  | nil => cases hne rfl
  | cons n ns =>
      cases ns with
      | nil =>
          intro h
          exact (hg n (by simp)).2 (by simp [pathOfNames, joinSlash] at h; simp [h])
      | cons m ms =>
          intro h
          have hn : n ≠ [] := (hg n (by simp)).1
          cases n with
          | nil => exact hn rfl
          | cons c cs =>
              simp only [pathOfNames, joinSlash, List.cons_append] at h
              rw [List.cons_eq_cons] at h
              have h2 := h.2
              simp at h2

theorem segCount_pathOfNames (names : List (List Char)) (hg : goodNames names) :
    segCount (pathOfNames names) = names.length := by
  cases names with
  | nil => decide
  | cons n ns =>
      unfold segCount pathOfNames
      rw [splitSlash_joinSlash _ (fun x hx => (hg x hx).2) (by simp)]
      rw [List.filter_eq_self.mpr]
      intro a ha
      simpa using (hg a ha).1

theorem enterPath_pathOfNames (names : List (List Char)) (t : List Char)
    (hg : goodNames names) :
    enterPath (pathOfNames names) t = pathOfNames (names ++ [t]) := by
  cases names with
  | nil => simp [enterPath, pathOfNames, joinSlash]
  | cons n ns =>
      unfold enterPath
      rw [if_neg (pathOfNames_ne_root (n :: ns) hg (by simp))]
      show pathOfNames (n :: ns) ++ '/' :: t = pathOfNames ((n :: ns) ++ [t])
      rw [show ((n :: ns) ++ [t]) = n :: (ns ++ [t]) from rfl]
      unfold pathOfNames
      rw [show (n :: (ns ++ [t])) = (n :: ns) ++ [t] from rfl]
      exact (joinSlash_append_last (n :: ns) t (by simp)).symm

theorem backPath_pathOfNames (names : List (List Char)) (hg : goodNames names)
    (hne : names ≠ []) :
    backPath (pathOfNames names) = pathOfNames names.dropLast := by
  cases names with
  | nil => cases hne rfl
  | cons n ns =>
      unfold backPath
      rw [if_pos (pathOfNames_ne_root (n :: ns) hg (by simp))]
      have hsplit : splitSlash (pathOfNames (n :: ns)) = n :: ns := by
        unfold pathOfNames
        exact splitSlash_joinSlash _ (fun x hx => (hg x hx).2) (by simp)
      cases ns with
      | nil => rw [hsplit]; simp [pathOfNames]
      | cons m ms =>
          simp only [hsplit]
          rw [if_pos (by simp)]
          have hdl : (n :: m :: ms).dropLast = n :: (m :: ms).dropLast := by
            simp [List.dropLast]
          have hdlne : (n :: m :: ms).dropLast ≠ [] := by simp [hdl]
          have hjne : joinSlash ((n :: m :: ms).dropLast) ≠ [] := by
            refine joinSlash_ne_nil _ hdlne (fun x hx => ?_)
            have hxmem : x ∈ n :: m :: ms := by
              rw [List.dropLast_eq_take] at hx
              exact List.take_subset _ _ hx
            exact (hg x hxmem).1
          rw [if_neg hjne]
          rw [hdl]
          rfl

/-- The cache only holds snapshots whose items have good names. -/
def cacheGood (c : List (String × contentsMsgData)) : Prop :=
  ∀ k d, lookupKey k c = some d → goodItems d.items

theorem cacheGood_erase (x : String) (c : List (String × contentsMsgData))
    (hc : cacheGood c) : cacheGood (eraseKey x c) := by
  intro k d h
  by_cases hk : k = x
  · rw [hk, lookupKey_eraseKey_self] at h; cases h
  · rw [lookupKey_eraseKey_ne k x hk] at h; exact hc k d h

theorem cacheGood_insert (x : String) (d : contentsMsgData)
    (c : List (String × contentsMsgData)) (hd : goodItems d.items)
    (hc : cacheGood c) : cacheGood (insertKey x d c) := by
  intro k dd h
  by_cases hk : k = x
  · rw [hk, lookupKey_insertKey_self] at h
    cases h; exact hd
  · rw [lookupKey_insertKey_ne k x hk] at h
    exact hc k dd h

/-- Inductive invariant tying the current path string to a stack of
good display names and keeping all reachable item lists good. -/
def PathInv (m : model) : Prop :=
  (∃ names, goodNames names ∧ m.currentFolderPath = pathOfNames names ∧
    m.folderHistory.length = names.length + 1)
  ∧ goodItems m.items ∧ cacheGood m.contentCache

theorem PathInv_newModel : PathInv newModel := by
  refine ⟨⟨[], ?_, rfl, rfl⟩, ?_, ?_⟩
  · intro n hn; cases hn
  · intro it hit; cases hit
  · intro k d h; cases h

theorem Update_PathInv (m : model) (msg : Msg) (hI : PathInv m)
    (hgm : goodMsg msg) : PathInv (Update m msg).1 := by
  obtain ⟨⟨names, hnames, hpath, hlen⟩, hitems, hcache⟩ := hI
  have base : PathInv m := ⟨⟨names, hnames, hpath, hlen⟩, hitems, hcache⟩
  cases msg with
  | keyRetry =>
      simp only [Update]
      split
      · exact ⟨⟨names, hnames, hpath, hlen⟩, hitems, cacheGood_erase _ _ hcache⟩
      · exact base
  | keyEnter =>
      simp only [Update]
      split
      · cases hget : m.items.get? m.cursor with
        | none => simp only [hget]; exact base
        | some it =>
            simp only [hget]
            split
            · have htit : goodTitle it.title := hitems it (List.get?_mem hget)
              have hgn : goodNames (names ++ [it.title]) := by
                intro x hx
                rcases List.mem_append.mp hx with h | h
                · exact hnames x h
                · simp at h; rw [h]; exact htit
              have hp : enterPath m.currentFolderPath it.title =
                  pathOfNames (names ++ [it.title]) := by
                rw [hpath]; exact enterPath_pathOfNames names it.title hnames
              cases hc : lookupKey it.id m.contentCache with
              | some cached =>
                  simp only [hc]
                  exact ⟨⟨names ++ [it.title], hgn, hp, by simp [hlen]⟩, hitems, hcache⟩
              | none =>
                  simp only [hc]
                  exact ⟨⟨names ++ [it.title], hgn, hp, by simp [hlen]⟩, hitems, hcache⟩
            · exact base
      · exact base
  | keyBack =>
      simp only [Update]
      split
      · rename_i hgd
        have hnne : names ≠ [] := by
          intro h
          rw [h] at hlen
          simp at hlen
          omega
        have hlen' : m.folderHistory.dropLast.length = names.dropLast.length + 1 := by
          rw [List.length_dropLast, hlen, List.length_dropLast]
          cases names with
          | nil => cases hnne rfl
          | cons a l => simp
        have hgdl : goodNames names.dropLast := by
          intro x hx
          rw [List.dropLast_eq_take] at hx
          exact hnames x (List.take_subset _ _ hx)
        have hbp : backPath m.currentFolderPath = pathOfNames names.dropLast := by
          rw [hpath]; exact backPath_pathOfNames names hnames hnne
        cases hl : m.folderHistory.dropLast.getLast? with
        | none => simp only [hl]; exact base
        | some prev =>
            simp only [hl]
            cases hc : lookupKey prev m.contentCache with
            | some cached =>
                simp only [hc]
                exact ⟨⟨names.dropLast, hgdl, hbp, hlen'⟩,
                  hcache prev cached hc, hcache⟩
            | none =>
                simp only [hc]
                exact ⟨⟨names.dropLast, hgdl, hbp, hlen'⟩, hitems, hcache⟩
      · cases hget : m.items.get? m.cursor with
        | none => simp only [hget]; exact base
        | some it =>
            simp only [hget]
            by_cases hr : m.removeEnabled = true
            · simp only [hr, if_true]
              refine ⟨⟨names, hnames, hpath, hlen⟩, ?_, hcache⟩
              intro x hx
              exact hitems x ((List.eraseIdx_sublist m.items m.cursor).subset hx)
            · simp only [Bool.not_eq_true] at hr
              simp only [hr, Bool.false_eq_true, if_false]
              exact base
  | keyMark =>
      simp only [Update]
      split
      · cases hget : m.items.get? m.cursor with
        | none => simp only [hget]; exact base
        | some sel =>
            simp only [hget]
            split
            · rw [markAssign_eq]
              exact ⟨⟨names, hnames, hpath, hlen⟩, hitems, hcache⟩
            · exact base
      · exact base
  | cursorSet n => exact ⟨⟨names, hnames, hpath, hlen⟩, hitems, hcache⟩
  | contentsMsg d =>
      exact ⟨⟨names, hnames, hpath, hlen⟩, hgm,
        cacheGood_insert _ _ _ hgm hcache⟩
  | errMsg e => exact ⟨⟨names, hnames, hpath, hlen⟩, hitems, hcache⟩
  | emptyContentsMsg => exact ⟨⟨names, hnames, hpath, hlen⟩, hitems, hcache⟩

theorem runTrace_PathInv (msgs : List Msg) (m : model) (hI : PathInv m)
    (hg : ∀ msg ∈ msgs, goodMsg msg) : PathInv (runTrace m msgs).1 := by
  induction msgs generalizing m with
  | nil => simpa [runTrace] using hI
  | cons msg rest ih =>
      have h1 := Update_PathInv m msg hI (hg msg (by simp))
      simpa [runTrace] using
        ih (Update m msg).1 h1 (fun x hx => hg x (List.mem_cons_of_mem _ hx))

/-- C7 (counterexample): with a folder whose display name "a/b"
contains a slash, one Enter from the root makes the path's segment
count 2 while the stack length minus one is 1 — the claimed equality
fails for that folder display name. -/
theorem path_segment_count_counterexample :
    ¬ (segCount ((runTrace newModel
        [.contentsMsg ⟨[⟨"7", .TypeFolder, ['a', '/', 'b'], false⟩], "r"⟩,
         .keyEnter]).1.currentFolderPath) =
      (runTrace newModel
        [.contentsMsg ⟨[⟨"7", .TypeFolder, ['a', '/', 'b'], false⟩], "r"⟩,
         .keyEnter]).1.folderHistory.length - 1) := by decide

/-- C7 (amended): provided every delivered item's display name is
non-empty and contains no '/', the displayed path's segment count
equals the folder-id stack length minus one in every reachable
state. -/
theorem path_matches_stack (msgs : List Msg) (hg : ∀ msg ∈ msgs, goodMsg msg) :
    segCount ((runTrace newModel msgs).1.currentFolderPath) =
      (runTrace newModel msgs).1.folderHistory.length - 1 := by
  obtain ⟨⟨names, hnames, hpath, hlen⟩, -, -⟩ :=
    runTrace_PathInv msgs newModel PathInv_newModel hg
  rw [hpath, hlen, segCount_pathOfNames names hnames]
  simp

/-- Witness for the amended path/stack theorem: one Enter into a
folder named "A" gives one path segment and stack length 2. -/
theorem path_matches_stack_witness :
    segCount ((runTrace newModel
        [.contentsMsg ⟨[⟨"7", .TypeFolder, ['A'], false⟩], "r"⟩,
         .keyEnter]).1.currentFolderPath) =
      (runTrace newModel
        [.contentsMsg ⟨[⟨"7", .TypeFolder, ['A'], false⟩], "r"⟩,
         .keyEnter]).1.folderHistory.length - 1 :=
  path_matches_stack
    [.contentsMsg ⟨[⟨"7", .TypeFolder, ['A'], false⟩], "r"⟩, .keyEnter]
    (by decide)

/-! ## C2: single-file transfer progress -/

theorem frac_nonneg_le_one (total : Int) (hpos : 0 < total) (x : Nat)
    (hx : x ≤ total.toNat) :
    0 ≤ ((x : ℚ) / (total : ℚ)) ∧ ((x : ℚ) / (total : ℚ)) ≤ 1 := by
  have htq : (0 : ℚ) < (total : ℚ) := by exact_mod_cast hpos
  have hcast : ((total.toNat : ℚ)) = (total : ℚ) := by
    exact_mod_cast Int.toNat_of_nonneg hpos.le
  refine ⟨div_nonneg (by positivity) htq.le, ?_⟩
  rw [div_le_one htq, ← hcast]
  exact_mod_cast hx

theorem frac_self_eq_one (total : Int) (hpos : 0 < total) :
    ((total.toNat : ℚ) / (total : ℚ)) = 1 := by
  have hcast : ((total.toNat : ℚ)) = (total : ℚ) := by
    exact_mod_cast Int.toNat_of_nonneg hpos.le
  rw [hcast]
  exact div_self (by exact_mod_cast hpos.ne')

/-- Every fraction the streaming loop emits is `(d + bytes so far) /
totalSize`, hence within `[0, 1]` as long as the stream cannot deliver
more than `totalSize` bytes in total. -/
theorem downloadLoop_progress_bounds (total : Int) (hpos : 0 < total)
    (name : List Char) :
    ∀ (reads : List ReadStep) (d : Nat),
      d + (reads.map (fun s => s.n)).sum ≤ total.toNat →
      ∀ q : ℚ, DlEvent.progressMsg q ∈ downloadLoop total name d reads →
        0 ≤ q ∧ q ≤ 1 := by
  intro reads
  induction reads with
  | nil => intro d _ q hq; simp [downloadLoop] at hq
  | cons s rest ih =>
      intro d hsum q hq
      have hsums : d + s.n + (rest.map (fun t => t.n)).sum ≤ total.toNat := by
        simp only [List.map_cons, List.sum_cons] at hsum; omega
      by_cases hn : 0 < s.n
      · by_cases hw : s.writeOk
        · cases hst : s.status with
          | eof =>
              simp [downloadLoop, hn, hw, hst] at hq
              rw [hq]
              simpa using frac_nonneg_le_one total hpos (d + s.n) (by omega)
          | errRead =>
              simp [downloadLoop, hn, hw, hst] at hq
              rw [hq]
              simpa using frac_nonneg_le_one total hpos (d + s.n) (by omega)
          | ok =>
              simp only [downloadLoop, hn, hw, hst, if_true] at hq
              rcases List.mem_cons.mp hq with hq | hq
              · have hq' : DlEvent.progressMsg q =
                    DlEvent.progressMsg (((d + s.n : Nat) : ℚ) / (total : ℚ)) := hq
                rw [DlEvent.progressMsg.injEq] at hq'
                rw [hq']
                exact frac_nonneg_le_one total hpos (d + s.n) (by omega)
              · exact ih (d + s.n) (by omega) q hq
        · simp [downloadLoop, hn, hw] at hq
      · cases hst : s.status with
        | eof => simp [downloadLoop, hn, hst] at hq
        | errRead => simp [downloadLoop, hn, hst] at hq
        | ok =>
            have hev : downloadLoop total name d (s :: rest) =
                downloadLoop total name d rest := by
              simp [downloadLoop, hn, hst]
            rw [hev] at hq
            exact ih d (by omega) q hq

/-- If the streaming loop ends with the completion event then its last
progress event has fraction 1 (or the loop emitted no progress at all
and the running count already equalled the total), given that `io.EOF`
only occurs once exactly `totalSize` bytes have been delivered. -/
theorem downloadLoop_complete_last (total : Int) (hpos : 0 < total)
    (name : List Char) :
    ∀ (reads : List ReadStep) (d : Nat),
      (∀ k, (hk : k < reads.length) → (reads.get ⟨k, hk⟩).status = .eof →
          d + ((reads.take (k+1)).map (fun s => s.n)).sum = total.toNat) →
      (downloadLoop total name d reads).getLast? =
          some (.downloadCompleteMsg name) →
      ((downloadLoop total name d reads).filter isProgress).getLast? =
          some (.progressMsg 1)
      ∨ (((downloadLoop total name d reads).filter isProgress) = []
          ∧ d = total.toNat) := by
  intro reads
  induction reads with
  | nil => intro d _ hlast; simp [downloadLoop] at hlast
  | cons s rest ih =>
      intro d heof hlast
      by_cases hn : 0 < s.n
      · by_cases hw : s.writeOk
        · cases hst : s.status with
          | eof =>
              left
              have hdtot : d + s.n = total.toNat := by
                have h0 := heof 0 (by simp) (by simpa using hst)
                simpa using h0
              have hev : downloadLoop total name d (s :: rest) =
                  [DlEvent.progressMsg (((d + s.n : Nat) : ℚ) / (total : ℚ)),
                   DlEvent.downloadCompleteMsg name] := by
                simp [downloadLoop, hn, hw, hst]
              have hfil : ([DlEvent.progressMsg (((d + s.n : Nat) : ℚ) / (total : ℚ)),
                   DlEvent.downloadCompleteMsg name]).filter isProgress =
                  [DlEvent.progressMsg (((d + s.n : Nat) : ℚ) / (total : ℚ))] := by
                simp [List.filter_cons, isProgress]
              rw [hev, hfil, hdtot, frac_self_eq_one total hpos]
              rfl
          | errRead => simp [downloadLoop, hn, hw, hst] at hlast
          | ok =>
              have hev : downloadLoop total name d (s :: rest) =
                  DlEvent.progressMsg (((d + s.n : Nat) : ℚ) / (total : ℚ)) ::
                    downloadLoop total name (d + s.n) rest := by
                simp [downloadLoop, hn, hw, hst]
              have hrest : ∀ k, (hk : k < rest.length) →
                  (rest.get ⟨k, hk⟩).status = .eof →
                  (d + s.n) + ((rest.take (k+1)).map (fun t => t.n)).sum =
                    total.toNat := by
                intro k hk hkst
                have h1 := heof (k+1) (by simpa using Nat.succ_lt_succ hk)
                  (by simpa using hkst)
                simp only [List.take_succ_cons, List.map_cons, List.sum_cons] at h1
                omega
              rw [hev] at hlast ⊢
              have hlast' : (downloadLoop total name (d + s.n) rest).getLast? =
                  some (.downloadCompleteMsg name) := by
                cases hL : downloadLoop total name (d + s.n) rest with
                | nil => rw [hL] at hlast; simp at hlast
                | cons e es =>
                    rw [hL] at hlast
                    rw [List.getLast?_cons_cons] at hlast
                    exact hlast
              rcases ih (d + s.n) hrest hlast' with hprog | ⟨hempty, hdval⟩
              · left
                rw [List.filter_cons]
                simp only [isProgress, if_true]
                cases hF : (downloadLoop total name (d + s.n) rest).filter isProgress with
                | nil => rw [hF] at hprog; simp at hprog
                | cons e' es' =>
                    rw [List.getLast?_cons_cons]
                    rw [hF] at hprog
                    exact hprog
              · left
                rw [List.filter_cons]
                simp only [isProgress, if_true]
                rw [hempty, hdval, frac_self_eq_one total hpos]
                rfl
        · simp [downloadLoop, hn, hw] at hlast
      · cases hst : s.status with
        | eof =>
            right
            have hs0 : s.n = 0 := by omega
            have hd : d = total.toNat := by
              have h0 := heof 0 (by simp) (by simpa using hst)
              simp only [List.take_succ_cons, List.take_zero, List.map_cons,
                List.map_nil, List.sum_cons, List.sum_nil] at h0
              omega
            exact ⟨by simp [downloadLoop, hn, hst, isProgress], hd⟩
        | errRead => simp [downloadLoop, hn, hst] at hlast
        | ok =>
            have hev : downloadLoop total name d (s :: rest) =
                downloadLoop total name d rest := by
              simp [downloadLoop, hn, hst]
            have hs0 : s.n = 0 := by omega
            have hrest : ∀ k, (hk : k < rest.length) →
                (rest.get ⟨k, hk⟩).status = .eof →
                d + ((rest.take (k+1)).map (fun t => t.n)).sum = total.toNat := by
              intro k hk hkst
              have h1 := heof (k+1) (by simpa using Nat.succ_lt_succ hk)
                (by simpa using hkst)
              simp only [List.take_succ_cons, List.map_cons, List.sum_cons] at h1
              omega
            rw [hev] at hlast ⊢
            exact ih d hrest hlast

/-- C2: for every single-file transfer, (i) every emitted progress
fraction lies in [0,1]; (ii) when the transfer ends with the
completion event, the last progress event emitted before it has
fraction 1; (iii) when URL resolution and the connection succeed but
the declared content length is unknown/non-positive, the transfer
emits no progress event and immediately emits the "untrackable"
failure event.  The hypotheses state the HTTP semantics of the
response body: it never delivers more than `ContentLength` bytes, and
`io.EOF` is only reached once exactly `ContentLength` bytes have been
delivered. -/
theorem single_transfer_progress_spec (env : TransferEnv) (fileName : List Char)
    (hsum : (env.reads.map (fun s => s.n)).sum ≤ env.contentLength.toNat)
    (heof : ∀ k, (hk : k < env.reads.length) →
        (env.reads.get ⟨k, hk⟩).status = .eof →
        ((env.reads.take (k+1)).map (fun s => s.n)).sum = env.contentLength.toNat) :
    (∀ q, DlEvent.progressMsg q ∈ cmdDownloadFile env fileName → 0 ≤ q ∧ q ≤ 1)
    ∧ ((cmdDownloadFile env fileName).getLast? =
          some (.downloadCompleteMsg fileName) →
        ((cmdDownloadFile env fileName).filter isProgress).getLast? =
          some (.progressMsg 1))
    ∧ (env.fetchFileOk = true → env.httpGetOk = true → env.contentLength ≤ 0 →
        cmdDownloadFile env fileName = [.downloadErrorMsg .untrackable fileName]) := by
  refine ⟨?_, ?_, ?_⟩
  · intro q hq
    by_cases hf : env.fetchFileOk = true
    · by_cases hg : env.httpGetOk = true
      · by_cases hcl : env.contentLength ≤ 0
        · simp [cmdDownloadFile, hf, hg, hcl] at hq
        · by_cases hcr : env.createOk = true
          · have hpos : 0 < env.contentLength := by omega
            have hq' : DlEvent.progressMsg q ∈
                downloadLoop env.contentLength fileName 0 env.reads := by
              simpa [cmdDownloadFile, hf, hg, hcl, hcr] using hq
            exact downloadLoop_progress_bounds env.contentLength hpos fileName
              env.reads 0 (by simpa using hsum) q hq'
          · simp [cmdDownloadFile, hf, hg, hcl, hcr] at hq
      · simp [cmdDownloadFile, hf, hg] at hq
    · simp [cmdDownloadFile, hf] at hq
  · intro hlast
    by_cases hf : env.fetchFileOk = true
    · by_cases hg : env.httpGetOk = true
      · by_cases hcl : env.contentLength ≤ 0
        · simp [cmdDownloadFile, hf, hg, hcl] at hlast
        · by_cases hcr : env.createOk = true
          · have hpos : 0 < env.contentLength := by omega
            have hcmd : cmdDownloadFile env fileName =
                downloadLoop env.contentLength fileName 0 env.reads := by
              simp [cmdDownloadFile, hf, hg, hcl, hcr]
            have heof' : ∀ k, (hk : k < env.reads.length) →
                (env.reads.get ⟨k, hk⟩).status = .eof →
                0 + ((env.reads.take (k+1)).map (fun s => s.n)).sum =
                  env.contentLength.toNat := by
              intro k hk h
              simpa using heof k hk h
            rw [hcmd] at hlast ⊢
            rcases downloadLoop_complete_last env.contentLength hpos fileName
                env.reads 0 heof' hlast with hp | ⟨_, h0⟩
            · exact hp
            · exfalso; omega
          · simp [cmdDownloadFile, hf, hg, hcl, hcr] at hlast
      · simp [cmdDownloadFile, hf, hg] at hlast
    · simp [cmdDownloadFile, hf] at hlast
  · intro h1 h2 h3
    simp [cmdDownloadFile, h1, h2, h3]

/-- Concrete transfer environment witnessing the single-file transfer
theorem: content length 4, streamed in two 2-byte chunks. -/
def envC2 : TransferEnv := ⟨true, true, 4, true, [⟨2, true, .ok⟩, ⟨2, true, .eof⟩]⟩

/-- Witness for the single-file transfer theorem at `envC2`. -/
theorem single_transfer_progress_spec_witness :
    (∀ q, DlEvent.progressMsg q ∈ cmdDownloadFile envC2 ['f'] → 0 ≤ q ∧ q ≤ 1)
    ∧ ((cmdDownloadFile envC2 ['f']).getLast? =
          some (.downloadCompleteMsg ['f']) →
        ((cmdDownloadFile envC2 ['f']).filter isProgress).getLast? =
          some (.progressMsg 1))
    ∧ (envC2.fetchFileOk = true → envC2.httpGetOk = true →
        envC2.contentLength ≤ 0 →
        cmdDownloadFile envC2 ['f'] = [.downloadErrorMsg .untrackable ['f']]) :=
  single_transfer_progress_spec envC2 ['f'] (by decide) (by decide)

/-! ## C3: batch best-effort -/

theorem batchGo_eq (total : Nat) (files : List BatchFile) :
    ∀ errs, batchGo total files errs =
      (files.map (fun f => (batchFileRun f).1)).flatten ++
      [ if errs ++ files.filterMap (fun f => (batchFileRun f).2) = []
        then DlEvent.batchDownloadCompleteMsg total
        else DlEvent.batchDownloadErrorMsg
          (errs ++ files.filterMap (fun f => (batchFileRun f).2)) ] := by
  induction files with
  | nil =>
      intro errs
      by_cases h : errs = [] <;> simp [batchGo, h]
  | cons f rest ih =>
      intro errs
      simp only [batchGo]
      rw [ih (errs ++ (batchFileRun f).2.toList)]
      cases h2 : (batchFileRun f).2 with
      | none => simp [List.filterMap_cons, h2]
      | some e => simp [List.filterMap_cons, h2]

theorem batchFileLoop_not_final (total : Int) (name : List Char) :
    ∀ (reads : List ReadStep) (d : Nat),
      ∀ e ∈ (batchFileLoop total name d reads).1, isBatchFinal e = false := by
  intro reads
  induction reads with
  | nil => intro d e he; simp [batchFileLoop] at he
  | cons s rest ih =>
      intro d e he
      by_cases hn : 0 < s.n
      · by_cases hw : s.writeOk
        · cases hst : s.status with
          | eof =>
              simp [batchFileLoop, hn, hw, hst] at he
              rcases he with rfl | rfl <;> rfl
          | errRead =>
              simp [batchFileLoop, hn, hw, hst] at he
              subst he; rfl
          | ok =>
              have hev : (batchFileLoop total name d (s :: rest)).1 =
                  DlEvent.progressMsg (((d + s.n : Nat) : ℚ) / (total : ℚ)) ::
                    (batchFileLoop total name (d + s.n) rest).1 := by
                simp [batchFileLoop, hn, hw, hst]
              rw [hev] at he
              rcases List.mem_cons.mp he with rfl | he
              · rfl
              · exact ih (d + s.n) e he
        · simp [batchFileLoop, hn, hw] at he
      · cases hst : s.status with
        | eof =>
            simp [batchFileLoop, hn, hst] at he
            subst he; rfl
        | errRead => simp [batchFileLoop, hn, hst] at he
        | ok =>
            have hev : (batchFileLoop total name d (s :: rest)).1 =
                (batchFileLoop total name d rest).1 := by
              simp [batchFileLoop, hn, hst]
            rw [hev] at he
            exact ih d e he

theorem batchFileRun_not_final (f : BatchFile) :
    ∀ e ∈ (batchFileRun f).1, isBatchFinal e = false := by
  intro e he
  simp only [batchFileRun] at he
  split at he
  · simp at he
  · split at he
    · simp at he
    · split at he
      · simp at he
      · split at he
        · simp at he
        · exact batchFileLoop_not_final _ _ _ _ e he

/-- C3: the batch pipeline processes every descriptor — its event
trace is the concatenation of each descriptor's own transfer trace, in
order, regardless of which descriptors fail — followed by exactly one
terminal batch event: an aggregated failure joining all collected
per-descriptor errors when at least one failed, otherwise a success
event reporting the count `len(files)`.  No batch terminal event
appears inside the per-descriptor traces. -/
theorem batch_best_effort (files : List BatchFile) :
    cmdBatchDownloadFiles files =
      (files.map (fun f => (batchFileRun f).1)).flatten ++
      [ if files.filterMap (fun f => (batchFileRun f).2) = []
        then DlEvent.batchDownloadCompleteMsg files.length
        else DlEvent.batchDownloadErrorMsg
          (files.filterMap (fun f => (batchFileRun f).2)) ]
    ∧ ∀ e ∈ (files.map (fun f => (batchFileRun f).1)).flatten,
        isBatchFinal e = false := by
  constructor
  · have h := batchGo_eq files.length files []
    simpa [cmdBatchDownloadFiles] using h
  · intro e he
    rcases List.mem_flatten.mp he with ⟨l, hl, hel⟩
    rcases List.mem_map.mp hl with ⟨f, _, rfl⟩
    exact batchFileRun_not_final f e hel

